import Mathlib

/-!
# Verification of `replay_trajectory_classification`

A shallow embedding of the `state_transition.py` and `classifier.py` modules of
the `replay_trajectory_classification` repository, together with models of the
routines those modules import from sibling modules that are not among the two
source files (every such definition carries a `Modelled from the spec:` marker
in its doc comment).

Embedding conventions:

* numpy float arrays are embedded as functions `ℕ → ℚ` (resp. `ℕ → ℕ → ℚ` for
  2-D arrays, and so on) together with the explicit extent over which sums and
  statements range; exact rational arithmetic stands in for IEEE floats;
* the spatial track is embedded in one dimension (`n_position_dims = 1`);
* in `ℚ`, division by zero yields `0`, which coincides with the source's
  `x[np.isnan(x)] = 0` replacement of the `0/0` entries produced when a row
  with total mass zero is normalized (on the non-negative inputs the source
  normalizes, a zero denominator arises only together with a zero numerator);
* the Gaussian kernel matrix built by `scipy.stats.multivariate_normal(...).pdf`
  has transcendental, strictly positive entries; it is embedded as an explicit
  matrix parameter `K`, with strict positivity available as a hypothesis where
  a theorem needs it.
-/

/-- Row sum of an `n`-column matrix at row `i`: numpy's `x.sum(axis=1)[i]`. -/
def rowSum (n : ℕ) (A : ℕ → ℕ → ℚ) (i : ℕ) : ℚ :=
  ∑ j ∈ Finset.range n, A i j

/-- Product of two `n × n` matrices (numpy matrix multiplication). -/
def matMul (n : ℕ) (A B : ℕ → ℕ → ℚ) : ℕ → ℕ → ℚ :=
  fun i j => ∑ k ∈ Finset.range n, A i k * B k j

/-- `np.linalg.matrix_power` for `n × n` matrices: `matPow n A 0` is the
identity matrix and `matPow n A (p+1) = A * matPow n A p`. -/
def matPow (n : ℕ) (A : ℕ → ℕ → ℚ) : ℕ → (ℕ → ℕ → ℚ)
  | 0 => fun i j => if i = j then 1 else 0
  | p + 1 => matMul n A (matPow n A p)

/-- `_normalize_row_probability` (state_transition.py, lines 7-12): divide each
row by its sum; the entries of a zero-mass row become `0/0`, which the source
replaces by `0` via `x[np.isnan(x)] = 0` and which is literally `0` in `ℚ`. -/
def normalize_row_probability (n : ℕ) (x : ℕ → ℕ → ℚ) : ℕ → ℕ → ℚ :=
  fun i j => x i j / rowSum n x i

/-- Boolean-mask selection `l[m]` of numpy, for a 1-D sample list. -/
def maskFilter (m : List Bool) (l : List ℚ) : List ℚ :=
  ((l.zip m).filter (fun p => p.2)).map (fun p => p.1)

/-- Bin assignment of `np.histogram`-style binning with explicit `edges`:
sample `x` falls in bin `i` when `edges[i] ≤ x < edges[i+1]`, the last bin
being closed on the right; samples outside `[edges[0], edges[last]]` are
dropped. -/
def binIndex (edges : List ℚ) (x : ℚ) : Option ℕ :=
  if edges.length < 2 then none
  else if x < edges.headI then none
  else if edges.getLastD 0 < x then none
  else some (min (edges.findIdx (fun e => x < e) - 1) (edges.length - 2))

/-- Two-dimensional histogram of `np.histogramdd` over the (next, previous)
sample pairs, with the same `edges` on both axes: entry `(a, b)` counts the
pairs whose first member falls in bin `a` and second member in bin `b`. -/
def hist2 (edges : List ℚ) (pairs : List (ℚ × ℚ)) : ℕ → ℕ → ℚ :=
  fun a b =>
    ((pairs.countP (fun p =>
      decide (binIndex edges p.1 = some a ∧ binIndex edges p.2 = some b)) : ℕ) : ℚ)

/-- Training-sample selection `position[is_training]` of `empirical_movement`
(state_transition.py, lines 56-58): a `None` mask is replaced by an all-ones
mask, so it selects every sample. -/
def trainingSelect (is_training : Option (List Bool)) (position : List ℚ) :
    List ℚ :=
  match is_training with
  | none => position
  | some m => maskFilter m position

/-- `empirical_movement` (state_transition.py, lines 24-69), 1-D case: select
the training samples, histogram the (position at t+1, position at t) pairs
over `edges × edges` (`bins=edges * 2`; `np.histogramdd` ignores its `range`
argument when explicit bin-edge arrays are supplied, so `position_extent` is
inert), row-normalize, and raise the matrix to the `replay_speed` power.
The reshape with `order='F'` from shape `(n, n)` to `(n, n)` is the identity
map and is elided. -/
def empirical_movement (position : List ℚ) (edges : List ℚ)
    (is_training : Option (List Bool)) (replay_speed : ℕ)
    (position_extent : Option (ℚ × ℚ)) : ℕ → ℕ → ℚ :=
  matPow (edges.length - 1)
    (normalize_row_probability (edges.length - 1)
      (hist2 edges ((trainingSelect is_training position).tail.zip
        (trainingSelect is_training position))))
    replay_speed

/-- `random_walk` (state_transition.py, lines 72-90): the Gaussian kernel
matrix `K` (entry `(i, j)` is the multivariate-normal density with mean
`place_bin_centers[j]` evaluated at `place_bin_centers[i]`) is row-normalized
and raised to the `replay_speed` power. -/
def random_walk (n_bins : ℕ) (K : ℕ → ℕ → ℚ) (replay_speed : ℕ) : ℕ → ℕ → ℚ :=
  matPow n_bins (normalize_row_probability n_bins K) replay_speed

/-- `random_walk_with_absorbing_boundaries` (state_transition.py, lines
93-120): the Gaussian kernel matrix with the rows and the columns of exterior
bins forced to zero, then row-normalized and raised to the `replay_speed`
power. -/
def random_walk_with_absorbing_boundaries (n_bins : ℕ) (K : ℕ → ℕ → ℚ)
    (is_track_interior : ℕ → Bool) (replay_speed : ℕ) : ℕ → ℕ → ℚ :=
  matPow n_bins
    (normalize_row_probability n_bins
      (fun i j => if is_track_interior i = true ∧ is_track_interior j = true
        then K i j else 0))
    replay_speed

/-- `uniform_state_transition` (state_transition.py, lines 123-143): an
all-ones matrix with exterior rows and columns zeroed, then row-normalized. -/
def uniform_state_transition (n_bins : ℕ) (is_track_interior : ℕ → Bool) :
    ℕ → ℕ → ℚ :=
  normalize_row_probability n_bins
    (fun i j => if is_track_interior i = true ∧ is_track_interior j = true
      then 1 else 0)

/-- `identity` (state_transition.py, lines 146-166): the identity matrix with
exterior rows and columns zeroed, then row-normalized. -/
def identity (n_bins : ℕ) (is_track_interior : ℕ → Bool) : ℕ → ℕ → ℚ :=
  normalize_row_probability n_bins
    (fun i j => if i = j ∧ is_track_interior i = true ∧ is_track_interior j = true
      then 1 else 0)

/-- `strong_diagonal_discrete` (state_transition.py, lines 184-201): `diag` on
the diagonal and `(1 - diag) / (n_states - 1)` on every off-diagonal entry. -/
def strong_diagonal_discrete (n_states : ℕ) (diag : ℚ) : ℕ → ℕ → ℚ :=
  fun i j => if i = j then diag else (1 - diag) / ((n_states : ℚ) - 1)

/-- The continuous transition types named by `state_transition.py`'s builders
(the difference combinations mentioned by the classifier docstrings are not
defined in the source files and are left out). -/
inductive CTType where
  | empirical_movement
  | random_walk
  | random_walk_with_absorbing_boundaries
  | uniform
  | identity
deriving DecidableEq

/-- Modelled from the spec: the `CONTINUOUS_TRANSITIONS` registry imported by
classifier.py is not among the source files; per spec §4.4 it dispatches each
type name to the corresponding builder of state_transition.py, passing the
fitted grid, interior mask, training position, edges, training flags, replay
speed, and position range. The bin count is `edges.length - 1` (the number of
place-bin centers in one dimension) and the Gaussian kernel built from the
movement variance is the parameter `K`. -/
def CONTINUOUS_TRANSITIONS (t : CTType) (edges : List ℚ)
    (is_track_interior : ℕ → Bool) (position : List ℚ)
    (is_training : Option (List Bool)) (replay_speed : ℕ)
    (position_range : Option (ℚ × ℚ)) (K : ℕ → ℕ → ℚ) : ℕ → ℕ → ℚ :=
  match t with
  | CTType.empirical_movement =>
      empirical_movement position edges is_training replay_speed position_range
  | CTType.random_walk => random_walk (edges.length - 1) K replay_speed
  | CTType.random_walk_with_absorbing_boundaries =>
      random_walk_with_absorbing_boundaries (edges.length - 1) K
        is_track_interior replay_speed
  | CTType.uniform => uniform_state_transition (edges.length - 1) is_track_interior
  | CTType.identity => identity (edges.length - 1) is_track_interior

/-- `_ClassifierBase.fit_continuous_state_transition` (classifier.py, lines
94-118): the `(n_states, n_states, n_bins, n_bins)` tensor is initialized to
zeros and each `(row_ind, column_ind)` slice is filled with the builder named
by the transition-type grid; indices outside the grid keep the zero slice. -/
def fit_continuous_state_transition (continuous_transition_types : List (List CTType))
    (edges : List ℚ) (is_track_interior : ℕ → Bool) (position : List ℚ)
    (is_training : Option (List Bool)) (replay_speed : ℕ)
    (position_range : Option (ℚ × ℚ)) (K : ℕ → ℕ → ℚ) :
    ℕ → ℕ → (ℕ → ℕ → ℚ) :=
  fun s s' =>
    match (continuous_transition_types.get? s).bind (fun row => row.get? s') with
    | some t =>
        CONTINUOUS_TRANSITIONS t edges is_track_interior position is_training
          replay_speed position_range K
    | none => fun _ _ => 0

/-- Number of interior bins: `is_track_interior.sum()` over the `n` bins. -/
def interiorCount (n : ℕ) (is_track_interior : ℕ → Bool) : ℕ :=
  ((Finset.range n).filter (fun j => is_track_interior j = true)).card

/-- Modelled from the spec: `uniform_on_track` lives in the
`initial_conditions` module, which is not among the source files; per spec
§4.3 it returns the distribution with equal mass on every interior bin and
zero elsewhere, summing to 1. -/
def uniform_on_track (n_bins : ℕ) (is_track_interior : ℕ → Bool) : ℕ → ℚ :=
  fun x => if x < n_bins ∧ is_track_interior x = true
    then ((interiorCount n_bins is_track_interior : ℚ))⁻¹ else 0

/-- `_ClassifierBase.fit_initial_conditions` (classifier.py, lines 85-92):
stack `n_states` copies of `uniform_on_track` and divide by `n_states` (the
trailing singleton axis of the source array is elided). -/
def fit_initial_conditions (n_states n_bins : ℕ) (is_track_interior : ℕ → Bool) :
    ℕ → ℕ → ℚ :=
  fun s x => if s < n_states
    then uniform_on_track n_bins is_track_interior x / (n_states : ℚ) else 0

/-- `_ClassifierBase.fit_place_grid` (classifier.py, lines 49-67,
`track_graph=None` branch): the value of the `is_track_interior_` attribute
after the call, as a function of its value before the call (`prev`, `none`
when the attribute was never set), the `infer_track_interior` flag, the
caller-supplied `is_track_interior` argument (`supplied`), the mask
`get_track_interior` would infer, and the all-ones mask.  The source assigns
the attribute only in the two `is_track_interior is None` branches. -/
def fit_place_grid_interior (prev : Option (List Bool)) (infer_track_interior : Bool)
    (supplied : Option (List Bool)) (inferred allOnes : List Bool) :
    Option (List Bool) :=
  if supplied.isNone && infer_track_interior then some inferred
  else if supplied.isNone && !infer_track_interior then some allOnes
  else prev

/-- Modelled from the spec: the one-step predictive prior of §4.7 (the
inference core `core.py` is not among the source files):
`prior(s', x') = Σ_{s,x} posterior(s, x) · D[s,s'] · C[s,s'](x,x')`. -/
def onestep_prior (S B : ℕ) (posterior : ℕ → ℕ → ℚ) (D : ℕ → ℕ → ℚ)
    (C : ℕ → ℕ → ℕ → ℕ → ℚ) : ℕ → ℕ → ℚ :=
  fun s' x' =>
    ∑ s ∈ Finset.range S, ∑ x ∈ Finset.range B, posterior s x * D s s' * C s s' x x'

/-- Modelled from the spec: normalization of a joint (regime, bin) array to
total mass 1, used by the causal recursion of §4.7; a zero total leaves the
array at zero (division by zero in `ℚ`). -/
def normalizeDist (S B : ℕ) (v : ℕ → ℕ → ℚ) : ℕ → ℕ → ℚ :=
  fun s x => v s x / (∑ s' ∈ Finset.range S, ∑ x' ∈ Finset.range B, v s' x')

/-- Modelled from the spec: `_causal_classify` (core.py, not among the source
files), per §4.7's forward recursion: the initial posterior is the normalized
product of the initial conditions and the first likelihood; each later
posterior is the normalized product of the one-step predictive prior and the
current likelihood. -/
def causal_classify (S B : ℕ) (ic : ℕ → ℕ → ℚ) (C : ℕ → ℕ → ℕ → ℕ → ℚ)
    (D : ℕ → ℕ → ℚ) (L : ℕ → ℕ → ℕ → ℚ) : ℕ → (ℕ → ℕ → ℚ)
  | 0 => normalizeDist S B (fun s x => ic s x * L 0 s x)
  | t + 1 => normalizeDist S B (fun s x =>
      onestep_prior S B (causal_classify S B ic C D L t) D C s x * L (t + 1) s x)

/-- Modelled from the spec: the backward steps of `_acausal_classify`
(core.py, not among the source files), per §4.7: `acausalAux` counts steps
back from the final index `T`; step 0 is the terminal condition
`acausal_T = causal_T`, and each further step multiplies the causal posterior
by the backward-propagated ratio, terms with a zero predictive prior
contributing zero.  Exact rational arithmetic needs no drift renormalization. -/
def acausalAux (S B : ℕ) (causal : ℕ → ℕ → ℕ → ℚ) (C : ℕ → ℕ → ℕ → ℕ → ℚ)
    (D : ℕ → ℕ → ℚ) (T : ℕ) : ℕ → (ℕ → ℕ → ℚ)
  | 0 => causal T
  | k + 1 => fun s x =>
      let prior := onestep_prior S B (causal (T - (k + 1))) D C
      causal (T - (k + 1)) s x *
        ∑ s' ∈ Finset.range S, ∑ x' ∈ Finset.range B,
          if prior s' x' = 0 then 0
          else D s s' * C s s' x x' * acausalAux S B causal C D T k s' x' / prior s' x'

/-- Modelled from the spec: `_acausal_classify` (core.py, not among the source
files) as a function of the queried time index `t ≤ T`. -/
def acausal_classify (S B : ℕ) (causal : ℕ → ℕ → ℕ → ℚ)
    (C : ℕ → ℕ → ℕ → ℕ → ℚ) (D : ℕ → ℕ → ℚ) (T t : ℕ) : ℕ → ℕ → ℚ :=
  acausalAux S B causal C D T (T - t)

/-- The fitted attributes of a `SortedSpikesClassifier` that `predict` reads
(classifier.py, lines 283-353). -/
structure SortedState where
  edges_ : List ℚ
  place_bin_centers_ : List ℚ
  centers_shape_ : List ℕ
  is_track_interior_ : ℕ → Bool
  initial_conditions_ : ℕ → ℕ → ℚ
  continuous_state_transition_ : ℕ → ℕ → (ℕ → ℕ → ℚ)
  discrete_state_transition_ : ℕ → ℕ → ℚ
  place_fields_ : ℕ → ℕ → ℚ
  continuous_transition_types : List (List CTType)

/-- The fitted attributes of a `ClusterlessClassifier` that `predict` reads
(classifier.py, lines 477-552). -/
structure ClusterlessState where
  edges_ : List ℚ
  place_bin_centers_ : List ℚ
  centers_shape_ : List ℕ
  is_track_interior_ : ℕ → Bool
  initial_conditions_ : ℕ → ℕ → ℚ
  continuous_state_transition_ : ℕ → ℕ → (ℕ → ℕ → ℚ)
  discrete_state_transition_ : ℕ → ℕ → ℚ
  joint_pdf_models_ : ℕ → List ℚ → ℚ
  ground_process_intensities_ : ℕ → ℕ → ℚ
  occupancy_ : ℕ → ℚ
  mean_rates_ : ℕ → ℚ
  continuous_transition_types : List (List CTType)

/-- The arrays assembled by `predict` (reshaping to labeled spatial axes is
elided; `mask` from `core.py` zeroes exterior bins, per spec §4.1). -/
structure PredictResults where
  time : List ℚ
  likelihood : ℕ → ℕ → ℕ → ℚ
  causal_posterior : ℕ → ℕ → ℕ → ℚ
  acausal_posterior : Option (ℕ → ℕ → ℕ → ℚ)

/-- `SortedSpikesClassifier.predict` (classifier.py, lines 283-353): the
spiking likelihood (computed by `estimate_spiking_likelihood` of the absent
`spiking_likelihood` module — modelled from the spec as the pure function
parameter `est_lik`) is broadcast across regimes, the causal and (optionally)
acausal recursions run, and the masked arrays are returned.  Every statement
of the source binds locals or builds the returned results; no attribute of
`self` is assigned, so the classifier state is returned unchanged. -/
def SortedState.predict
    (est_lik : List (List ℚ) → (ℕ → ℕ → ℚ) → (ℕ → Bool) → (ℕ → ℕ → ℚ))
    (st : SortedState) (spikes : List (List ℚ)) (time : Option (List ℚ))
    (is_compute_acausal : Bool) : SortedState × PredictResults :=
  let n_states := st.continuous_transition_types.length
  let n_bins := st.place_bin_centers_.length
  let n_time := spikes.length
  let lik := est_lik spikes st.place_fields_ st.is_track_interior_
  let L : ℕ → ℕ → ℕ → ℚ := fun t _s x => lik t x
  let causal := causal_classify n_states n_bins st.initial_conditions_
      st.continuous_state_transition_ st.discrete_state_transition_ L
  let acausal : Option (ℕ → ℕ → ℕ → ℚ) :=
    if is_compute_acausal then
      some (fun t => acausal_classify n_states n_bins causal
        st.continuous_state_transition_ st.discrete_state_transition_ (n_time - 1) t)
    else none
  let timeVals := match time with
    | none => (List.range n_time).map (fun i => (i : ℚ))
    | some ts => ts
  let maskArr : (ℕ → ℕ → ℕ → ℚ) → (ℕ → ℕ → ℕ → ℚ) :=
    fun v t s x => if st.is_track_interior_ x = true then v t s x else 0
  (st, { time := timeVals, likelihood := maskArr L,
         causal_posterior := maskArr causal,
         acausal_posterior := acausal.map maskArr })

/-- `ClusterlessClassifier.predict` (classifier.py, lines 477-552): like the
sorted-spikes path, with the multiunit likelihood (computed by
`estimate_multiunit_likelihood` of the absent `multiunit_likelihood` module —
modelled from the spec as the pure function parameter `est_ml`).  No attribute
of `self` is assigned, so the classifier state is returned unchanged. -/
def ClusterlessState.predict
    (est_ml : List (List (List ℚ)) → List ℚ → (ℕ → List ℚ → ℚ) → (ℕ → ℕ → ℚ) →
      (ℕ → ℚ) → (ℕ → ℚ) → (ℕ → Bool) → (ℕ → ℕ → ℚ))
    (st : ClusterlessState) (multiunits : List (List (List ℚ)))
    (time : Option (List ℚ)) (is_compute_acausal : Bool) :
    ClusterlessState × PredictResults :=
  let n_states := st.continuous_transition_types.length
  let n_bins := st.place_bin_centers_.length
  let n_time := multiunits.length
  let lik := est_ml multiunits st.place_bin_centers_ st.joint_pdf_models_
      st.ground_process_intensities_ st.occupancy_ st.mean_rates_
      st.is_track_interior_
  let L : ℕ → ℕ → ℕ → ℚ := fun t _s x => lik t x
  let causal := causal_classify n_states n_bins st.initial_conditions_
      st.continuous_state_transition_ st.discrete_state_transition_ L
  let acausal : Option (ℕ → ℕ → ℕ → ℚ) :=
    if is_compute_acausal then
      some (fun t => acausal_classify n_states n_bins causal
        st.continuous_state_transition_ st.discrete_state_transition_ (n_time - 1) t)
    else none
  let timeVals := match time with
    | none => (List.range n_time).map (fun i => (i : ℚ))
    | some ts => ts
  let maskArr : (ℕ → ℕ → ℕ → ℚ) → (ℕ → ℕ → ℕ → ℚ) :=
    fun v t s x => if st.is_track_interior_ x = true then v t s x else 0
  (st, { time := timeVals, likelihood := maskArr L,
         causal_posterior := maskArr causal,
         acausal_posterior := acausal.map maskArr })

/-- A labeled data array of the xarray kind: named dimensions, a size per
dimension name, and data indexed by an assignment of an index to each name. -/
structure DataArrayM where
  dims : List String
  size : String → ℕ
  data : (String → ℕ) → ℚ

/-- Point update of an index assignment. -/
def updateAssign (f : String → ℕ) (name : String) (v : ℕ) : String → ℕ :=
  fun s => if s = name then v else f s

/-- Summing a labeled array over one named dimension. -/
def sumOutDim (d : DataArrayM) (name : String) : DataArrayM :=
  { dims := d.dims.filter (fun s => s ≠ name)
    size := d.size
    data := fun asn => ∑ v ∈ Finset.range (d.size name), d.data (updateAssign asn name v) }

/-- `results.sum(names)` of xarray: sums out the named dimensions, raising
`ValueError` when any of them is absent from the array's dimensions. -/
def sumDims (d : DataArrayM) (names : List String) : Except String DataArrayM :=
  if names.all (fun nm => decide (nm ∈ d.dims)) then
    Except.ok (names.foldl sumOutDim d)
  else Except.error "ValueError"

/-- `_ClassifierBase.predict_proba` (classifier.py, lines 142-147): try to sum
over the 2-D spatial axes; on `ValueError` fall back to the 1-D axis name. -/
def predict_proba (results : DataArrayM) : Except String DataArrayM :=
  match sumDims results ["x_position", "y_position"] with
  | Except.ok r => Except.ok r
  | Except.error _ => sumDims results ["position"]

/-! ## Helper lemmas -/

theorem rowSum_matMul (n : ℕ) (A B : ℕ → ℕ → ℚ) (i : ℕ) :
    rowSum n (matMul n A B) i = ∑ k ∈ Finset.range n, A i k * rowSum n B k := by
  unfold rowSum matMul
  rw [Finset.sum_comm]
  simp_rw [Finset.mul_sum]

theorem rowSum_delta (n i : ℕ) (hi : i < n) :
    rowSum n (fun a b => if a = b then (1 : ℚ) else 0) i = 1 := by
  unfold rowSum
  rw [Finset.sum_ite_eq]
  simp [hi]

theorem rowSum_nonneg (n : ℕ) (A : ℕ → ℕ → ℚ) (h : ∀ i j, 0 ≤ A i j) (i : ℕ) :
    0 ≤ rowSum n A i :=
  Finset.sum_nonneg (fun j _ => h i j)

theorem normalize_rowSum (n : ℕ) (A : ℕ → ℕ → ℚ) (i : ℕ) :
    rowSum n (normalize_row_probability n A) i
      = if rowSum n A i = 0 then 0 else 1 := by
  unfold normalize_row_probability rowSum
  rw [← Finset.sum_div]
  by_cases h : (∑ j ∈ Finset.range n, A i j) = 0
  · simp [h]
  · simp only [rowSum] at h ⊢
    rw [div_self h, if_neg h]

theorem normalize_rowSum_mem (n : ℕ) (A : ℕ → ℕ → ℚ) (i : ℕ) :
    rowSum n (normalize_row_probability n A) i = 1
      ∨ rowSum n (normalize_row_probability n A) i = 0 := by
  rw [normalize_rowSum]
  by_cases h : rowSum n A i = 0
  · exact Or.inr (if_pos h)
  · exact Or.inl (if_neg h)

theorem normalize_entry_nonneg (n : ℕ) (A : ℕ → ℕ → ℚ) (h : ∀ i j, 0 ≤ A i j)
    (i j : ℕ) : 0 ≤ normalize_row_probability n A i j :=
  div_nonneg (h i j) (rowSum_nonneg n A h i)

theorem matPow_rowSum_of_closed (n : ℕ) (A : ℕ → ℕ → ℚ)
    (h01 : ∀ i, i < n → rowSum n A i = 1 ∨ rowSum n A i = 0)
    (hcl : ∀ i k, i < n → k < n → rowSum n A k = 0 → A i k = 0) :
    ∀ p, 1 ≤ p → ∀ i, i < n → rowSum n (matPow n A p) i = rowSum n A i := by
  intro p
  induction p with
  | zero => intro h; exact absurd h (by omega)
  | succ p ih =>
    intro _ i hi
    rcases Nat.eq_zero_or_pos p with hp0 | hp1
    · subst hp0
      rw [show matPow n A 1 = matMul n A (matPow n A 0) from rfl, rowSum_matMul]
      refine Eq.trans (Finset.sum_congr rfl ?_) rfl
      intro k hk
      rw [show matPow n A 0 = fun a b => if a = b then (1 : ℚ) else 0 from rfl,
        rowSum_delta n k (Finset.mem_range.1 hk), mul_one]
    · rw [show matPow n A (p + 1) = matMul n A (matPow n A p) from rfl, rowSum_matMul]
      refine Eq.trans (Finset.sum_congr rfl ?_) rfl
      intro k hk
      rw [ih hp1 k (Finset.mem_range.1 hk)]
      rcases h01 k (Finset.mem_range.1 hk) with h1 | h0
      · rw [h1, mul_one]
      · rw [h0, mul_zero, hcl i k hi (Finset.mem_range.1 hk) h0]

theorem matPow_nonneg_rowSum_le_one (n : ℕ) (A : ℕ → ℕ → ℚ)
    (hnn : ∀ i j, 0 ≤ A i j) (hle : ∀ i, i < n → rowSum n A i ≤ 1) :
    ∀ p, (∀ i j, 0 ≤ matPow n A p i j)
      ∧ (∀ i, i < n → rowSum n (matPow n A p) i ≤ 1) := by
  intro p
  induction p with
  | zero =>
    constructor
    · intro i j
      by_cases h : i = j <;> simp [matPow, h]
    · intro i hi
      rw [show matPow n A 0 = fun a b => if a = b then (1 : ℚ) else 0 from rfl,
        rowSum_delta n i hi]
  | succ p ih =>
    constructor
    · intro i j
      exact Finset.sum_nonneg (fun k _ => mul_nonneg (hnn i k) (ih.1 k j))
    · intro i hi
      rw [show matPow n A (p + 1) = matMul n A (matPow n A p) from rfl, rowSum_matMul]
      calc ∑ k ∈ Finset.range n, A i k * rowSum n (matPow n A p) k
          ≤ ∑ k ∈ Finset.range n, A i k * 1 := by
            refine Finset.sum_le_sum (fun k hk => ?_)
            exact mul_le_mul_of_nonneg_left (ih.2 k (Finset.mem_range.1 hk)) (hnn i k)
        _ = rowSum n A i := by simp [rowSum]
        _ ≤ 1 := hle i hi

theorem matPow_entry_nonneg (n : ℕ) (A : ℕ → ℕ → ℚ) (hnn : ∀ i j, 0 ≤ A i j) :
    ∀ p i j, 0 ≤ matPow n A p i j := by
  intro p
  induction p with
  | zero =>
    intro i j
    by_cases h : i = j <;> simp [matPow, h]
  | succ p ih =>
    intro i j
    exact Finset.sum_nonneg (fun k _ => mul_nonneg (hnn i k) (ih k j))

theorem matPow_rowSum_nonneg (n : ℕ) (A : ℕ → ℕ → ℚ) (hnn : ∀ i j, 0 ≤ A i j)
    (p i : ℕ) : 0 ≤ rowSum n (matPow n A p) i :=
  rowSum_nonneg n _ (fun a b => matPow_entry_nonneg n A hnn p a b) i

theorem normalize_rowSum_le_one (n : ℕ) (A : ℕ → ℕ → ℚ) (i : ℕ) :
    rowSum n (normalize_row_probability n A) i ≤ 1 := by
  rcases normalize_rowSum_mem n A i with h | h <;> rw [h] <;> norm_num

theorem bounds_of_mem01 {q : ℚ} (h : q = 1 ∨ q = 0) : 0 ≤ q ∧ q ≤ 1 := by
  rcases h with h | h <;> rw [h] <;> norm_num

theorem hist2_nonneg (edges : List ℚ) (pairs : List (ℚ × ℚ)) (a b : ℕ) :
    0 ≤ hist2 edges pairs a b := by
  unfold hist2
  exact_mod_cast Nat.zero_le _

theorem normalized_pow_bounds (n : ℕ) (A : ℕ → ℕ → ℚ) (hnn : ∀ i j, 0 ≤ A i j)
    (p i : ℕ) (hi : i < n) :
    0 ≤ rowSum n (matPow n (normalize_row_probability n A) p) i
      ∧ rowSum n (matPow n (normalize_row_probability n A) p) i ≤ 1 :=
  ⟨matPow_rowSum_nonneg n _ (normalize_entry_nonneg n A hnn) p i,
    (matPow_nonneg_rowSum_le_one n _ (normalize_entry_nonneg n A hnn)
      (fun k _ => normalize_rowSum_le_one n A k) p).2 i hi⟩

theorem kernel_rowSum_pos (n : ℕ) (K : ℕ → ℕ → ℚ) (hK : ∀ i j, 0 < K i j)
    (hn : 0 < n) (i : ℕ) : 0 < rowSum n K i :=
  Finset.sum_pos (fun j _ => hK i j) (Finset.nonempty_range_iff.2 (by omega))

theorem random_walk_rowSum (n : ℕ) (K : ℕ → ℕ → ℚ) (hK : ∀ i j, 0 < K i j)
    (rs i : ℕ) (hi : i < n) : rowSum n (random_walk n K rs) i = 1 := by
  unfold random_walk
  rcases Nat.eq_zero_or_pos rs with h0 | h1
  · subst h0
    rw [show matPow n (normalize_row_probability n K) 0
      = fun a b => if a = b then (1 : ℚ) else 0 from rfl]
    exact rowSum_delta n i hi
  · have hbase : ∀ k, k < n → rowSum n (normalize_row_probability n K) k = 1 := by
      intro k hk
      rw [normalize_rowSum,
        if_neg (kernel_rowSum_pos n K hK (Nat.pos_of_ne_zero (by omega)) k).ne']
    rw [matPow_rowSum_of_closed n _ (fun k hk => Or.inl (hbase k hk))
      (fun a b _ hb h0 => absurd h0 (by rw [hbase b hb]; norm_num)) rs h1 i hi,
      hbase i hi]

theorem absorbing_mask_entry_zero (n : ℕ) (K : ℕ → ℕ → ℚ) (int : ℕ → Bool)
    (hK : ∀ i j, 0 < K i j) (i k : ℕ) (hi : i < n)
    (hbase : rowSum n
      (fun a b => if int a = true ∧ int b = true then K a b else 0) k = 0) :
    (if int i = true ∧ int k = true then K i k else 0) = 0 := by
  by_cases hkI : int k = true
  · have hnn : ∀ j ∈ Finset.range n,
        0 ≤ (if int k = true ∧ int j = true then K k j else 0) := by
      intro j _
      by_cases hc : int k = true ∧ int j = true
      · rw [if_pos hc]; exact (hK k j).le
      · rw [if_neg hc]
    have hbase' : ∑ j ∈ Finset.range n,
        (if int k = true ∧ int j = true then K k j else 0) = 0 := hbase
    have hterms := (Finset.sum_eq_zero_iff_of_nonneg hnn).1 hbase'
    by_cases hiT : int i = true
    · have h := hterms i (Finset.mem_range.2 hi)
      rw [if_pos ⟨hkI, hiT⟩] at h
      exact absurd h (hK k i).ne'
    · rw [if_neg (fun hc => hiT hc.1)]
  · rw [if_neg (fun hc => hkI hc.2)]

theorem absorbing_closed (n : ℕ) (K : ℕ → ℕ → ℚ) (int : ℕ → Bool)
    (hK : ∀ i j, 0 < K i j) :
    ∀ i k, i < n → k < n →
      rowSum n (normalize_row_probability n
        (fun a b => if int a = true ∧ int b = true then K a b else 0)) k = 0 →
      normalize_row_probability n
        (fun a b => if int a = true ∧ int b = true then K a b else 0) i k = 0 := by
  intro i k hi _hk h0
  have hbase : rowSum n
      (fun a b => if int a = true ∧ int b = true then K a b else 0) k = 0 := by
    by_contra hne
    rw [normalize_rowSum, if_neg hne] at h0
    exact one_ne_zero h0
  have hz := absorbing_mask_entry_zero n K int hK i k hi hbase
  show (if int i = true ∧ int k = true then K i k else 0) / _ = 0
  rw [hz, zero_div]

theorem absorbing_rowSum_mem (n : ℕ) (K : ℕ → ℕ → ℚ) (int : ℕ → Bool)
    (hK : ∀ i j, 0 < K i j) (rs i : ℕ) (hi : i < n) :
    rowSum n (random_walk_with_absorbing_boundaries n K int rs) i = 1
      ∨ rowSum n (random_walk_with_absorbing_boundaries n K int rs) i = 0 := by
  unfold random_walk_with_absorbing_boundaries
  rcases Nat.eq_zero_or_pos rs with h0 | h1
  · subst h0
    rw [show matPow n (normalize_row_probability n
        (fun a b => if int a = true ∧ int b = true then K a b else 0)) 0
      = fun a b => if a = b then (1 : ℚ) else 0 from rfl]
    exact Or.inl (rowSum_delta n i hi)
  · rw [matPow_rowSum_of_closed n _ (fun k _ => normalize_rowSum_mem n _ k)
      (absorbing_closed n K int hK) rs h1 i hi]
    exact normalize_rowSum_mem n _ i

theorem uniform_base_rowSum (n : ℕ) (int : ℕ → Bool) (i : ℕ) :
    rowSum n (fun a b => if int a = true ∧ int b = true then (1 : ℚ) else 0) i
      = if int i = true then (interiorCount n int : ℚ) else 0 := by
  unfold rowSum interiorCount
  by_cases h : int i = true
  · simp only [h, true_and, if_true]
    rw [Finset.sum_boole]
  · simp [h]

theorem maskFilter_replicate_true (l : List ℚ) :
    maskFilter (List.replicate l.length true) l = l := by
  induction l with
  | nil => rfl
  | cons a l ih =>
    simp only [List.length_cons, List.replicate_succ, maskFilter,
      List.zip_cons_cons, List.filter_cons_of_pos, List.map_cons] at *
    rw [ih]

/-! ## Claim theorems -/

/-- C6: for every `n ≥ 2` and `diag ∈ (0,1)`, `strong_diagonal_discrete n diag`
has every diagonal entry equal to `diag`, every off-diagonal entry equal to
`(1 - diag) / (n - 1)`, and every row summing to 1. -/
theorem strong_diagonal_discrete_spec (n : ℕ) (hn : 2 ≤ n) (d : ℚ)
    (h0 : 0 < d) (h1 : d < 1) :
    (∀ i, i < n → strong_diagonal_discrete n d i i = d)
    ∧ (∀ i j, i < n → j < n → i ≠ j →
        strong_diagonal_discrete n d i j = (1 - d) / ((n : ℚ) - 1))
    ∧ (∀ i, i < n → rowSum n (strong_diagonal_discrete n d) i = 1) := by
  refine ⟨fun i _ => by simp [strong_diagonal_discrete],
    fun i j _ _ hij => by simp [strong_diagonal_discrete, hij], ?_⟩
  intro i hi
  unfold rowSum strong_diagonal_discrete
  have hmem : i ∈ Finset.range n := Finset.mem_range.2 hi
  rw [← Finset.add_sum_erase _ _ hmem, if_pos rfl]
  have herase : ∀ j ∈ (Finset.range n).erase i,
      (if i = j then d else (1 - d) / ((n : ℚ) - 1)) = (1 - d) / ((n : ℚ) - 1) := by
    intro j hj
    exact if_neg (fun h => (Finset.ne_of_mem_erase hj) h.symm)
  rw [Finset.sum_congr rfl herase, Finset.sum_const,
    Finset.card_erase_of_mem hmem, Finset.card_range, nsmul_eq_mul]
  have hcast : ((n - 1 : ℕ) : ℚ) = (n : ℚ) - 1 := by
    rw [Nat.cast_sub (by omega), Nat.cast_one]
  have hne : (n : ℚ) - 1 ≠ 0 := by
    intro h
    rw [sub_eq_zero, Nat.cast_eq_one] at h
    omega
  rw [hcast]
  have hcancel : ((n : ℚ) - 1) * ((1 - d) / ((n : ℚ) - 1)) = 1 - d := by
    field_simp
  rw [hcancel]
  ring

/-- C6 witness: `strong_diagonal_discrete_spec` applied at `n = 3`,
`diag = 99/100`. -/
theorem strong_diagonal_discrete_spec_witness :
    (2 ≤ 3 ∧ (0 : ℚ) < 99 / 100 ∧ (99 / 100 : ℚ) < 1)
    ∧ ((∀ i, i < 3 → strong_diagonal_discrete 3 (99 / 100) i i = 99 / 100)
      ∧ (∀ i j, i < 3 → j < 3 → i ≠ j →
          strong_diagonal_discrete 3 (99 / 100) i j = (1 - 99 / 100) / ((3 : ℚ) - 1))
      ∧ (∀ i, i < 3 → rowSum 3 (strong_diagonal_discrete 3 (99 / 100)) i = 1)) :=
  ⟨⟨by norm_num, by norm_num, by norm_num⟩,
    strong_diagonal_discrete_spec 3 (by norm_num) (99 / 100) (by norm_num) (by norm_num)⟩

/-- C7: for every interior mask with at least one interior bin, the uniform
continuous builder gives every interior-to-interior entry the value `1/k`
(`k` the interior count) and every entry in an exterior row or column the
value 0. -/
theorem uniform_state_transition_spec (n : ℕ) (int : ℕ → Bool)
    (hk : 1 ≤ interiorCount n int) :
    (∀ i j, i < n → j < n → int i = true → int j = true →
      uniform_state_transition n int i j = 1 / (interiorCount n int : ℚ))
    ∧ (∀ i j, (int i = false ∨ int j = false) →
      uniform_state_transition n int i j = 0) := by
  constructor
  · intro i j _hi _hj hInti hIntj
    show (if int i = true ∧ int j = true then (1 : ℚ) else 0)
      / rowSum n (fun a b => if int a = true ∧ int b = true then (1 : ℚ) else 0) i = _
    rw [uniform_base_rowSum, if_pos ⟨hInti, hIntj⟩, if_pos hInti]
  · intro i j h
    show (if int i = true ∧ int j = true then (1 : ℚ) else 0)
      / rowSum n (fun a b => if int a = true ∧ int b = true then (1 : ℚ) else 0) i = 0
    rcases h with h | h
    · rw [if_neg (fun hc => by simp [h] at hc)]
      exact zero_div _
    · rw [if_neg (fun hc => by simp [h] at hc)]
      exact zero_div _

/-- C7 witness: `uniform_state_transition_spec` applied at `n = 2` with the
all-interior mask. -/
theorem uniform_state_transition_spec_witness :
    (1 ≤ interiorCount 2 (fun _ => true))
    ∧ ((∀ i j, i < 2 → j < 2 → (fun _ => true) i = true → (fun _ => true) j = true →
        uniform_state_transition 2 (fun _ => true) i j
          = 1 / (interiorCount 2 (fun _ => true) : ℚ))
      ∧ (∀ i j, ((fun _ => true) i = false ∨ (fun _ => true) j = false) →
        uniform_state_transition 2 (fun _ => true) i j = 0)) :=
  ⟨by decide, uniform_state_transition_spec 2 (fun _ => true) (by decide)⟩

/-- C2 (amended): raising a matrix whose rows each sum to 1 or 0 to a power
`p ≥ 1` (so in particular `replay_speed ∈ {1, 2, 40}`) preserves the row sums
provided additionally every index whose row sums to 0 has a zero column (no
row places mass on a zero-row index) — as holds for the exterior bins zeroed
by the absorbing, uniform, and identity builders.  Without that closure
condition the claim fails (see the counterexample). -/
theorem matPow_preserves_row_sums (n : ℕ) (M : ℕ → ℕ → ℚ)
    (h01 : ∀ i, i < n → rowSum n M i = 1 ∨ rowSum n M i = 0)
    (hcl : ∀ i k, i < n → k < n → rowSum n M k = 0 → M i k = 0)
    (p : ℕ) (hp : 1 ≤ p) (i : ℕ) (hi : i < n) :
    rowSum n (matPow n M p) i = rowSum n M i :=
  matPow_rowSum_of_closed n M h01 hcl p hp i hi

/-- C2 counterexample: the matrix `_normalize_row_probability` produces from
`[[1, 1], [0, 0]]` has row sums 1 and 0, yet its square (replay speed 2) has
first row summing to 1/2 — strictly between 0 and 1, though that row summed
to 1 before powering. -/
theorem matPow_row_sums_counterexample :
    (rowSum 2 (normalize_row_probability 2
        (fun i _ => if i = 0 then (1 : ℚ) else 0)) 0 = 1
      ∧ rowSum 2 (normalize_row_probability 2
        (fun i _ => if i = 0 then (1 : ℚ) else 0)) 1 = 0)
    ∧ rowSum 2 (matPow 2 (normalize_row_probability 2
        (fun i _ => if i = 0 then (1 : ℚ) else 0)) 2) 0 = 1 / 2
    ∧ rowSum 2 (matPow 2 (normalize_row_probability 2
        (fun i _ => if i = 0 then (1 : ℚ) else 0)) 2) 0 ≠ 1
    ∧ rowSum 2 (matPow 2 (normalize_row_probability 2
        (fun i _ => if i = 0 then (1 : ℚ) else 0)) 2) 0 ≠ 0 := by
  norm_num [rowSum, normalize_row_probability, matPow, matMul,
    Finset.sum_range_succ, Finset.sum_range_zero]

/-- C2 witness: `matPow_preserves_row_sums` applied to the 2×2 identity matrix
at power 2. -/
theorem matPow_preserves_row_sums_witness :
    (rowSum 2 (fun i j => if i = j then (1 : ℚ) else 0) 0 = 1)
    ∧ rowSum 2 (matPow 2 (fun i j => if i = j then (1 : ℚ) else 0) 2) 0
        = rowSum 2 (fun i j => if i = j then (1 : ℚ) else 0) 0 :=
  ⟨by norm_num [rowSum, Finset.sum_range_succ],
    matPow_preserves_row_sums 2 (fun i j => if i = j then (1 : ℚ) else 0)
      (fun i hi => by
        interval_cases i <;>
          exact Or.inl (by norm_num [rowSum, Finset.sum_range_succ]))
      (fun i k _ hk h0 => absurd h0 (by
        interval_cases k <;> norm_num [rowSum, Finset.sum_range_succ]))
      2 (by norm_num) 0 (by norm_num)⟩

/-- C1 (amended): for every fitted classifier, every row of every
(from-regime, to-regime) slice of the fitted continuous state-transition
tensor sums to a value in `[0, 1]`; moreover every row of every slice whose
transition type is not `empirical_movement` sums to 1 or to exactly 0.
`empirical_movement` slices can have rows summing strictly between 0 and 1
(see the counterexample): powering the row-normalized movement histogram
leaks mass out of the rows of bins that occur as a temporal predecessor but
never as a successor. -/
theorem fit_continuous_state_transition_row_sums
    (types : List (List CTType)) (edges position : List ℚ)
    (is_track_interior : ℕ → Bool) (is_training : Option (List Bool))
    (replay_speed : ℕ) (position_range : Option (ℚ × ℚ)) (K : ℕ → ℕ → ℚ)
    (hK : ∀ i j, 0 < K i j) (s s' : ℕ) (t : CTType)
    (ht : (types.get? s).bind (fun row => row.get? s') = some t)
    (i : ℕ) (hi : i < edges.length - 1) :
    (0 ≤ rowSum (edges.length - 1)
        (fit_continuous_state_transition types edges is_track_interior position
          is_training replay_speed position_range K s s') i
      ∧ rowSum (edges.length - 1)
        (fit_continuous_state_transition types edges is_track_interior position
          is_training replay_speed position_range K s s') i ≤ 1)
    ∧ (t ≠ CTType.empirical_movement →
        rowSum (edges.length - 1)
          (fit_continuous_state_transition types edges is_track_interior position
            is_training replay_speed position_range K s s') i = 1
        ∨ rowSum (edges.length - 1)
          (fit_continuous_state_transition types edges is_track_interior position
            is_training replay_speed position_range K s s') i = 0) := by
  have hsl : fit_continuous_state_transition types edges is_track_interior
      position is_training replay_speed position_range K s s'
      = CONTINUOUS_TRANSITIONS t edges is_track_interior position is_training
        replay_speed position_range K := by
    unfold fit_continuous_state_transition
    rw [ht]
  rw [hsl]
  cases t with
  | empirical_movement =>
    refine ⟨?_, fun h => absurd rfl h⟩
    exact normalized_pow_bounds (edges.length - 1)
      (hist2 edges ((trainingSelect is_training position).tail.zip
        (trainingSelect is_training position)))
      (fun a b => hist2_nonneg _ _ a b) replay_speed i hi
  | random_walk =>
    have h1 : rowSum (edges.length - 1)
        (random_walk (edges.length - 1) K replay_speed) i = 1 :=
      random_walk_rowSum (edges.length - 1) K hK replay_speed i hi
    exact ⟨bounds_of_mem01 (Or.inl h1), fun _ => Or.inl h1⟩
  | random_walk_with_absorbing_boundaries =>
    have hmem := absorbing_rowSum_mem (edges.length - 1) K is_track_interior hK
      replay_speed i hi
    exact ⟨bounds_of_mem01 hmem, fun _ => hmem⟩
  | uniform =>
    have hmem : rowSum (edges.length - 1)
        (uniform_state_transition (edges.length - 1) is_track_interior) i = 1
        ∨ rowSum (edges.length - 1)
          (uniform_state_transition (edges.length - 1) is_track_interior) i = 0 :=
      normalize_rowSum_mem (edges.length - 1) _ i
    exact ⟨bounds_of_mem01 hmem, fun _ => hmem⟩
  | identity =>
    have hmem : rowSum (edges.length - 1)
        (identity (edges.length - 1) is_track_interior) i = 1
        ∨ rowSum (edges.length - 1)
          (identity (edges.length - 1) is_track_interior) i = 0 :=
      normalize_rowSum_mem (edges.length - 1) _ i
    exact ⟨bounds_of_mem01 hmem, fun _ => hmem⟩

/-- C1 witness: `fit_continuous_state_transition_row_sums` applied to a
one-regime classifier whose only transition type is `uniform`, on the grid
with edges `[0, 1, 2]` and the all-interior mask. -/
theorem fit_continuous_state_transition_row_sums_witness :
    (∀ i j : ℕ, (0 : ℚ) < (fun _ _ => (1 : ℚ)) i j)
    ∧ ((0 ≤ rowSum (([0, 1, 2] : List ℚ).length - 1)
        (fit_continuous_state_transition [[CTType.uniform]] [0, 1, 2]
          (fun _ => true) [] none 2 none (fun _ _ => 1) 0 0) 0
      ∧ rowSum (([0, 1, 2] : List ℚ).length - 1)
        (fit_continuous_state_transition [[CTType.uniform]] [0, 1, 2]
          (fun _ => true) [] none 2 none (fun _ _ => 1) 0 0) 0 ≤ 1)
    ∧ (CTType.uniform ≠ CTType.empirical_movement →
        rowSum (([0, 1, 2] : List ℚ).length - 1)
          (fit_continuous_state_transition [[CTType.uniform]] [0, 1, 2]
            (fun _ => true) [] none 2 none (fun _ _ => 1) 0 0) 0 = 1
        ∨ rowSum (([0, 1, 2] : List ℚ).length - 1)
          (fit_continuous_state_transition [[CTType.uniform]] [0, 1, 2]
            (fun _ => true) [] none 2 none (fun _ _ => 1) 0 0) 0 = 0)) :=
  ⟨fun _ _ => one_pos,
    fit_continuous_state_transition_row_sums [[CTType.uniform]] [0, 1, 2] []
      (fun _ => true) none 2 none (fun _ _ => 1) (fun _ _ => one_pos)
      0 0 CTType.uniform rfl 0 (by norm_num)⟩

/-- C1 counterexample: a classifier fitted with the single transition type
`empirical_movement` on positions `[0, 1, 1]` (grid edges `[0, 1, 2]`, so bin
1 occurs as a temporal successor twice and bin 0 only as a predecessor) and
`replay_speed = 2` has a tensor slice whose row 1 sums to `1/2` — strictly
between 0 and 1, refuting the claim that every row sums to 1 or to 0. -/
theorem fit_continuous_state_transition_counterexample :
    rowSum 2 (fit_continuous_state_transition [[CTType.empirical_movement]]
        [0, 1, 2] (fun _ => true) [0, 1, 1] none 2 none (fun _ _ => 1) 0 0) 1
      = 1 / 2
    ∧ rowSum 2 (fit_continuous_state_transition [[CTType.empirical_movement]]
        [0, 1, 2] (fun _ => true) [0, 1, 1] none 2 none (fun _ _ => 1) 0 0) 1 ≠ 1
    ∧ rowSum 2 (fit_continuous_state_transition [[CTType.empirical_movement]]
        [0, 1, 2] (fun _ => true) [0, 1, 1] none 2 none (fun _ _ => 1) 0 0) 1 ≠ 0 := by
  have hsl : fit_continuous_state_transition [[CTType.empirical_movement]]
      [0, 1, 2] (fun _ => true) [0, 1, 1] none 2 none (fun _ _ => 1) 0 0
      = empirical_movement [0, 1, 1] [0, 1, 2] none 2 none := rfl
  rw [hsl]
  norm_num [empirical_movement, trainingSelect, hist2, binIndex, rowSum,
    normalize_row_probability, matPow, matMul, List.countP_cons, List.countP_nil,
    List.findIdx_cons, Finset.sum_range_succ, List.headI, List.getLastD]

/-- C3 (code-bug evidence): on a fresh classifier (`is_track_interior_` never
set, `prev = none`) a caller-supplied interior mask is silently ignored by
`fit_place_grid`: neither `is_track_interior is None` branch fires, so the
attribute stays unset (`none`) instead of becoming the supplied mask. -/
theorem fit_place_grid_drops_supplied_mask :
    fit_place_grid_interior none true (some [true, false]) [true, true] [true, true]
      = none
    ∧ fit_place_grid_interior none true (some [true, false]) [true, true] [true, true]
      ≠ some [true, false] := by
  decide

/-- C4: with `is_compute_acausal` enabled, the acausal posterior that
`predict` returns equals the causal posterior at the final time index,
element for element, for both classifier front-ends (the acausal recursion's
terminal condition is `acausal_T = causal_T` and the output masking is
applied identically to both arrays). -/
theorem predict_acausal_final_eq_causal_final :
    (∀ (est_lik : List (List ℚ) → (ℕ → ℕ → ℚ) → (ℕ → Bool) → (ℕ → ℕ → ℚ))
      (st : SortedState) (spikes : List (List ℚ)) (time : Option (List ℚ))
      (s x : ℕ),
      ((SortedState.predict est_lik st spikes time true).2.acausal_posterior.getD
          (fun _ _ _ => 0)) (spikes.length - 1) s x
        = (SortedState.predict est_lik st spikes time true).2.causal_posterior
            (spikes.length - 1) s x)
    ∧ (∀ (est_ml : List (List (List ℚ)) → List ℚ → (ℕ → List ℚ → ℚ) →
        (ℕ → ℕ → ℚ) → (ℕ → ℚ) → (ℕ → ℚ) → (ℕ → Bool) → (ℕ → ℕ → ℚ))
      (st : ClusterlessState) (mu : List (List (List ℚ)))
      (time : Option (List ℚ)) (s x : ℕ),
      ((ClusterlessState.predict est_ml st mu time true).2.acausal_posterior.getD
          (fun _ _ _ => 0)) (mu.length - 1) s x
        = (ClusterlessState.predict est_ml st mu time true).2.causal_posterior
            (mu.length - 1) s x) := by
  constructor
  · intro est_lik st spikes time s x
    simp [SortedState.predict, acausal_classify, Nat.sub_self, acausalAux]
  · intro est_ml st mu time s x
    simp [ClusterlessState.predict, acausal_classify, Nat.sub_self, acausalAux]

/-- C5: for at least one interior bin and at least one regime, the fitted
initial conditions sum to 1 over all (regime, bin) pairs, assign the equal
mass `1 / (k · n_states)` to every (regime, interior-bin) pair, and are
exactly 0 at every exterior bin in every regime. -/
theorem fit_initial_conditions_spec (S n : ℕ) (int : ℕ → Bool)
    (hS : 0 < S) (hk : 0 < interiorCount n int) :
    (∑ s ∈ Finset.range S, ∑ x ∈ Finset.range n,
        fit_initial_conditions S n int s x) = 1
    ∧ (∀ s x, s < S → x < n → int x = true →
        fit_initial_conditions S n int s x
          = ((interiorCount n int : ℚ) * (S : ℚ))⁻¹)
    ∧ (∀ s x, s < S → int x = false → fit_initial_conditions S n int s x = 0) := by
  have hkQ : ((interiorCount n int : ℚ)) ≠ 0 := by
    exact_mod_cast Nat.pos_iff_ne_zero.1 hk
  have hSQ : ((S : ℚ)) ≠ 0 := by
    exact_mod_cast Nat.pos_iff_ne_zero.1 hS
  have huot : ∑ x ∈ Finset.range n, uniform_on_track n int x = 1 := by
    unfold uniform_on_track
    have hcong : ∀ x ∈ Finset.range n,
        (if x < n ∧ int x = true then ((interiorCount n int : ℚ))⁻¹ else 0)
          = (if int x = true then ((interiorCount n int : ℚ))⁻¹ else 0) := by
      intro x hx
      by_cases h : int x = true
      · rw [if_pos ⟨Finset.mem_range.1 hx, h⟩, if_pos h]
      · rw [if_neg (fun hc => h hc.2), if_neg h]
    rw [Finset.sum_congr rfl hcong, ← Finset.sum_filter, Finset.sum_const]
    show (interiorCount n int) • ((interiorCount n int : ℚ))⁻¹ = 1
    rw [nsmul_eq_mul, mul_inv_cancel₀ hkQ]
  refine ⟨?_, ?_, ?_⟩
  · have hinner : ∀ s ∈ Finset.range S,
        (∑ x ∈ Finset.range n, fit_initial_conditions S n int s x)
          = 1 / (S : ℚ) := by
      intro s hs
      unfold fit_initial_conditions
      rw [Finset.sum_congr rfl
        (fun x _ => if_pos (Finset.mem_range.1 hs)), ← Finset.sum_div, huot]
    rw [Finset.sum_congr rfl hinner, Finset.sum_const, Finset.card_range,
      nsmul_eq_mul]
    rw [mul_one_div, div_self hSQ]
  · intro s x hs hx hint
    unfold fit_initial_conditions uniform_on_track
    rw [if_pos hs, if_pos ⟨hx, hint⟩, div_eq_mul_inv, ← mul_inv]
  · intro s x hs hext
    unfold fit_initial_conditions uniform_on_track
    rw [if_pos hs, if_neg (fun hc => by rw [hext] at hc; exact Bool.false_ne_true hc.2),
      zero_div]

/-- C5 witness: `fit_initial_conditions_spec` applied at 3 regimes, 2 bins,
all-interior mask. -/
theorem fit_initial_conditions_spec_witness :
    (0 < 3 ∧ 0 < interiorCount 2 (fun _ => true))
    ∧ ((∑ s ∈ Finset.range 3, ∑ x ∈ Finset.range 2,
        fit_initial_conditions 3 2 (fun _ => true) s x) = 1
      ∧ (∀ s x, s < 3 → x < 2 → (fun _ => true) x = true →
          fit_initial_conditions 3 2 (fun _ => true) s x
            = ((interiorCount 2 (fun _ => true) : ℚ) * (3 : ℚ))⁻¹)
      ∧ (∀ s x, s < 3 → (fun _ => true) x = false →
          fit_initial_conditions 3 2 (fun _ => true) s x = 0)) :=
  ⟨⟨by decide, by decide⟩,
    fit_initial_conditions_spec 3 2 (fun _ => true) (by decide) (by decide)⟩

/-- C8: `predict` mutates no fitted attribute on either classifier: the
classifier state returned alongside the results is the input state itself
(every statement of both `predict` bodies binds locals only). -/
theorem predict_preserves_fitted_state :
    (∀ (est_lik : List (List ℚ) → (ℕ → ℕ → ℚ) → (ℕ → Bool) → (ℕ → ℕ → ℚ))
      (st : SortedState) (spikes : List (List ℚ)) (time : Option (List ℚ))
      (flag : Bool), (SortedState.predict est_lik st spikes time flag).1 = st)
    ∧ (∀ (est_ml : List (List (List ℚ)) → List ℚ → (ℕ → List ℚ → ℚ) →
        (ℕ → ℕ → ℚ) → (ℕ → ℚ) → (ℕ → ℚ) → (ℕ → Bool) → (ℕ → ℕ → ℚ))
      (st : ClusterlessState) (mu : List (List (List ℚ)))
      (time : Option (List ℚ)) (flag : Bool),
      (ClusterlessState.predict est_ml st mu time flag).1 = st) :=
  ⟨fun _ _ _ _ _ => rfl, fun _ _ _ _ _ => rfl⟩

/-- C9: `predict_proba` returns the dataset summed over `x_position` and
`y_position` when both axes are present, and exactly when that summation
fails (an axis absent, as for 1-D results) it returns the dataset summed over
the single `position` axis. -/
theorem predict_proba_marginalization (r : DataArrayM) :
    (("x_position" ∈ r.dims ∧ "y_position" ∈ r.dims) →
      predict_proba r
        = Except.ok (sumOutDim (sumOutDim r "x_position") "y_position"))
    ∧ (¬("x_position" ∈ r.dims ∧ "y_position" ∈ r.dims) → "position" ∈ r.dims →
      predict_proba r = Except.ok (sumOutDim r "position")) := by
  constructor
  · rintro ⟨hx, hy⟩
    unfold predict_proba sumDims
    simp [hx, hy]
  · intro hnot hp
    unfold predict_proba sumDims
    have hcond : (["x_position", "y_position"].all
        (fun nm => decide (nm ∈ r.dims))) = false := by
      by_cases hx : "x_position" ∈ r.dims
      · by_cases hy : "y_position" ∈ r.dims
        · exact absurd ⟨hx, hy⟩ hnot
        · simp [hx, hy]
      · simp [hx]
    rw [hcond]
    simp [hp]

/-- C9 witness: `predict_proba_marginalization` applied to a 1-D result
dataset with dimensions `time`, `state`, `position`. -/
theorem predict_proba_marginalization_witness :
    (¬(("x_position" ∈ (["time", "state", "position"] : List String))
        ∧ ("y_position" ∈ (["time", "state", "position"] : List String)))
      ∧ "position" ∈ (["time", "state", "position"] : List String))
    ∧ predict_proba ⟨["time", "state", "position"], fun _ => 1, fun _ => 0⟩
      = Except.ok (sumOutDim
          ⟨["time", "state", "position"], fun _ => 1, fun _ => 0⟩ "position") :=
  ⟨⟨by decide, by decide⟩,
    (predict_proba_marginalization
        ⟨["time", "state", "position"], fun _ => 1, fun _ => 0⟩).2
      (by decide) (by decide)⟩

/-- C10: the training mask of `empirical_movement` is applied before
consecutive-pair formation: masking the position array first and passing an
all-true mask yields the same transition matrix, so two selected samples
adjacent in the filtered sequence count as a one-step transition even when
not adjacent in time. -/
theorem empirical_movement_mask_prefilter (position edges : List ℚ)
    (m : List Bool) (replay_speed : ℕ) (ext : Option (ℚ × ℚ))
    (hm : m.length = position.length) :
    empirical_movement position edges (some m) replay_speed ext
      = empirical_movement (maskFilter m position) edges
          (some (List.replicate (maskFilter m position).length true))
          replay_speed ext := by
  simp only [empirical_movement, trainingSelect]
  rw [maskFilter_replicate_true]

/-- C10 witness: `empirical_movement_mask_prefilter` applied to positions
`[0, 1]` with mask `[true, false]`. -/
theorem empirical_movement_mask_prefilter_witness :
    (([true, false] : List Bool).length = ([0, 1] : List ℚ).length)
    ∧ empirical_movement [0, 1] [0, 1, 2] (some [true, false]) 1 none
      = empirical_movement (maskFilter [true, false] [0, 1]) [0, 1, 2]
          (some (List.replicate (maskFilter [true, false] ([0, 1] : List ℚ)).length
            true)) 1 none :=
  ⟨rfl, empirical_movement_mask_prefilter [0, 1] [0, 1, 2] [true, false] 1 none rfl⟩
